import Mathlib

/-!
Verification of the virtual-scroll core of `stencil-virtualized`:
the Fenwick tree (`src/utils/fenwick-tree.ts`), the `VirtualScroll`
engine, and the `chunkArray` helper (`src/utils/helpers.ts`).

JavaScript numbers are modelled as `ℤ` (all claims are about integer
inputs); array indices inside loops are `ℕ` or `ℤ` matching the
reachable values of the source loops.
-/

namespace StencilVirtualized

/-- `lowbit n` is the lowest set bit of `n` (with `lowbit 0 = 0`).
For a JavaScript int32 value `1 ≤ n < 2^31` this equals the source
expression `n & -n` used in `fenwick-tree.ts`. -/
def lowbit (n : ℕ) : ℕ :=
  if h : n = 0 then 0
  else if n % 2 = 1 then 1
  else 2 * lowbit (n / 2)
termination_by n
decreasing_by
  exact Nat.div_lt_self (Nat.pos_of_ne_zero h) (by norm_num)

theorem lowbit_zero : lowbit 0 = 0 := by
  rw [lowbit]
  simp

theorem lowbit_odd (n : ℕ) (h : n % 2 = 1) : lowbit n = 1 := by
  rw [lowbit]
  have hn : n ≠ 0 := by omega
  simp [hn, h]

theorem lowbit_two_mul (n : ℕ) : lowbit (2 * n) = 2 * lowbit n := by
  rcases Nat.eq_zero_or_pos n with h0 | h0
  · subst h0; simp [lowbit_zero]
  · rw [lowbit]
    have h1 : 2 * n ≠ 0 := by omega
    have h2 : ¬ (2 * n % 2 = 1) := by omega
    simp [h1, h2]

theorem lowbit_pos (n : ℕ) (hn : 0 < n) : 0 < lowbit n := by
  induction n using Nat.strong_induction_on with
  | _ n ih =>
    rcases Nat.even_or_odd n with he | ho
    · obtain ⟨m, rfl⟩ := he
      have hm : 0 < m := by omega
      have : (m + m) = 2 * m := by ring
      rw [this, lowbit_two_mul]
      have := ih m (by omega) hm
      omega
    · rw [lowbit_odd n (Nat.odd_iff.mp ho)]
      omega

theorem lowbit_le (n : ℕ) : lowbit n ≤ n := by
  induction n using Nat.strong_induction_on with
  | _ n ih =>
    rcases Nat.eq_zero_or_pos n with h0 | h0
    · subst h0; simp [lowbit_zero]
    rcases Nat.even_or_odd n with he | ho
    · obtain ⟨m, rfl⟩ := he
      have : (m + m) = 2 * m := by ring
      rw [this, lowbit_two_mul]
      have := ih m (by omega)
      omega
    · rw [lowbit_odd n (Nat.odd_iff.mp ho)]
      omega

/-- Adding the lowest set bit at least doubles it: the Fenwick update
chain `p, p + lowbit p, ...` has strictly growing intervals. -/
theorem lowbit_add_lowbit (n : ℕ) (hn : 0 < n) :
    2 * lowbit n ≤ lowbit (n + lowbit n) := by
  induction n using Nat.strong_induction_on with
  | _ n ih =>
    rcases Nat.even_or_odd n with he | ho
    · obtain ⟨m, rfl⟩ := he
      have h2 : (m + m) = 2 * m := by ring
      have hm : 0 < m := by omega
      rw [h2, lowbit_two_mul]
      have h3 : 2 * m + 2 * lowbit m = 2 * (m + lowbit m) := by ring
      rw [h3, lowbit_two_mul]
      have := ih m (by omega) hm
      omega
    · have hodd := Nat.odd_iff.mp ho
      have h1 : lowbit n = 1 := lowbit_odd n hodd
      rw [h1]
      have he : (n + 1) % 2 = 0 := by omega
      obtain ⟨m, hm⟩ : ∃ m, n + 1 = 2 * m := ⟨(n + 1) / 2, by omega⟩
      rw [hm, lowbit_two_mul]
      have := lowbit_pos m (by omega)
      omega

/-- Adding `r < lowbit n` to `n` leaves the low bits equal to those of
`r`: `lowbit (n + r) = lowbit r`. -/
theorem lowbit_add_of_lt (n r : ℕ) (hr : 0 < r) (hlt : r < lowbit n) :
    lowbit (n + r) = lowbit r := by
  induction n using Nat.strong_induction_on generalizing r with
  | _ n ih =>
    rcases Nat.eq_zero_or_pos n with h0 | h0
    · subst h0; rw [lowbit_zero] at hlt; omega
    rcases Nat.even_or_odd n with he | ho
    · obtain ⟨m, rfl⟩ := he
      have h2 : (m + m) = 2 * m := by ring
      rw [h2] at hlt ⊢
      rw [lowbit_two_mul] at hlt
      rcases Nat.even_or_odd r with hre | hro
      · obtain ⟨s, rfl⟩ := hre
        have h3 : (s + s) = 2 * s := by ring
        rw [h3] at hr hlt ⊢
        have h4 : 2 * m + 2 * s = 2 * (m + s) := by ring
        rw [h4, lowbit_two_mul, lowbit_two_mul]
        have := ih m (by omega) s (by omega) (by omega)
        omega
      · have hro1 := Nat.odd_iff.mp hro
        rw [lowbit_odd r hro1, lowbit_odd (2 * m + r) (by omega)]
    · have h1 : lowbit n = 1 := lowbit_odd n (Nat.odd_iff.mp ho)
      omega

/-- Laminarity of Fenwick intervals: if the interval
`(k - lowbit k, k]` contains `j`, it contains all of
`(j - lowbit j, j]`. -/
theorem sub_lowbit_le (k : ℕ) : ∀ j, 0 < j → j ≤ k → k - lowbit k < j →
    k - lowbit k ≤ j - lowbit j := by
  induction k using Nat.strong_induction_on with
  | _ k ih =>
    intro j hj hjk hlt
    rcases Nat.eq_or_lt_of_le hjk with heq | hlt2
    · subst heq; omega
    rcases Nat.even_or_odd k with he | ho
    · obtain ⟨m, rfl⟩ := he
      have h2 : (m + m) = 2 * m := by ring
      rw [h2] at hjk hlt ⊢
      rw [h2] at hlt2
      rw [lowbit_two_mul] at hlt ⊢
      rcases Nat.even_or_odd j with hje | hjo
      · obtain ⟨i, rfl⟩ := hje
        have h3 : (i + i) = 2 * i := by ring
        rw [h3] at hj hjk hlt ⊢
        rw [h3] at hlt2
        rw [lowbit_two_mul]
        have hm := lowbit_le m
        have hi := lowbit_le i
        have := ih m (by omega) i (by omega) (by omega) (by omega)
        omega
      · rw [lowbit_odd j (Nat.odd_iff.mp hjo)]
        have := lowbit_le m
        omega
    · rw [lowbit_odd k (Nat.odd_iff.mp ho)] at hlt
      omega

/-!
Fenwick tree (`src/utils/fenwick-tree.ts`).  The backing array
`tree : number[]` is modelled as `List ℤ`; `tree[i] += v` is
`t.set i (t.getD i 0 + v)`.
-/

/-- Loop body of `FenwickTree.update`: starting from the 1-based
position `j = index + 1`, walk upward by `j += j & -j` while
`j < tree.length`, adding `v` at each slot.  In the source `j ≥ 1`
always holds on entry and `j` only grows, so the `0 < j` conjunct of
the guard (needed for termination) never changes behaviour. -/
def fenwickUpdateLoop (t : List ℤ) (j : ℕ) (v : ℤ) : List ℤ :=
  if h : 0 < j ∧ j < t.length then
    fenwickUpdateLoop (t.set j (t.getD j 0 + v)) (j + lowbit j) v
  else t
termination_by t.length - j
decreasing_by
  have h1 := lowbit_pos j h.1
  have h2 : (t.set j (t.getD j 0 + v)).length = t.length := by
    simp
  omega

namespace FenwickTree

/-- `FenwickTree.update(index, value)` from `fenwick-tree.ts`. -/
def update (t : List ℤ) (index : ℕ) (value : ℤ) : List ℤ :=
  fenwickUpdateLoop t (index + 1) value

end FenwickTree

/-- Loop of `FenwickTree.query`: starting from the 1-based position
`j = index + 1`, accumulate `tree[j]` walking down by `j -= j & -j`
until `j = 0`.  (The source reads `tree[j]` only for `j < tree.length`
in every reachable call; out-of-range reads are modelled as 0.) -/
def fenwickQueryLoop (t : List ℤ) (j : ℕ) : ℤ :=
  if h : 0 < j then t.getD j 0 + fenwickQueryLoop t (j - lowbit j)
  else 0
termination_by j
decreasing_by
  have := lowbit_pos j h
  omega

namespace FenwickTree

/-- `FenwickTree.query(index)` from `fenwick-tree.ts`; the index may be
`-1` (then `index + 1 = 0` and the loop never runs). -/
def query (t : List ℤ) (index : ℤ) : ℤ :=
  fenwickQueryLoop t (index + 1).toNat

/-- `FenwickTree.queryRange(startIndex, endIndex)` from
`fenwick-tree.ts`. -/
def queryRange (t : List ℤ) (startIndex endIndex : ℤ) : ℤ :=
  query t endIndex - (if 0 < startIndex then query t (startIndex - 1) else 0)

/-- The `length` getter: `tree.length - 1`. -/
def length (t : List ℤ) : ℤ :=
  (t.length : ℤ) - 1

end FenwickTree

/-- `initFenwickTree(values)`: allocate `values.length + 1` zero slots,
then `update(i, values[i])` for `i = 0 .. values.length - 1`. -/
def initFenwickTree (values : List ℤ) : List ℤ :=
  (List.range values.length).foldl
    (fun t i => FenwickTree.update t i (values.getD i 0))
    (List.replicate (values.length + 1) 0)

theorem fenwickUpdateLoop_length (t : List ℤ) (j : ℕ) (v : ℤ) :
    (fenwickUpdateLoop t j v).length = t.length := by
  induction t, j, v using fenwickUpdateLoop.induct with
  | case1 t j v h ih =>
    rw [fenwickUpdateLoop, dif_pos h, ih]
    simp
  | case2 t j v h =>
    rw [fenwickUpdateLoop, dif_neg h]

theorem getD_set (l : List ℤ) (i k : ℕ) (x : ℤ) :
    (l.set i x).getD k 0 = if i = k ∧ i < l.length then x else l.getD k 0 := by
  by_cases hik : i = k
  · subst hik
    by_cases hl : i < l.length
    · simp [List.getD_eq_getElem?_getD, List.getElem?_set_eq hl, hl]
    · rw [List.set_eq_of_length_le (by omega)]
      simp [hl]
  · rw [List.getD_eq_getElem?_getD, List.getD_eq_getElem?_getD,
      List.getElem?_set_ne hik]
    simp [hik]

/-- Pointwise effect of the update walk: starting at position `j ≥ 1`,
slot `k` receives `v` exactly when `j ≤ k < tree.length` and
`k - lowbit k < j`, i.e. when the weight index `j - 1` lies in the
interval `[k - lowbit k, k)` covered by slot `k`. -/
theorem fenwickUpdateLoop_getD (t : List ℤ) (j : ℕ) (v : ℤ) (hj : 0 < j) :
    ∀ k, (fenwickUpdateLoop t j v).getD k 0 =
      t.getD k 0 +
        (if j ≤ k ∧ k - lowbit k < j ∧ k < t.length then v else 0) := by
  induction t, j, v using fenwickUpdateLoop.induct with
  | case1 t j v h ih =>
    intro k
    rw [fenwickUpdateLoop, dif_pos h]
    have hlb := lowbit_pos j h.1
    rw [ih (by omega) k]
    rw [getD_set]
    rw [List.length_set]
    by_cases hkj : k = j
    · subst hkj
      have h1 : ¬ (k + lowbit k ≤ k) := by omega
      simp [h1, h.2, lowbit_le k, Nat.sub_lt h.1 hlb]
    · have hset : ¬ (j = k ∧ j < t.length) := by
        intro hc
        exact hkj hc.1.symm
      simp only [hset, if_neg, not_false_iff]
      congr 1
      by_cases hcond : j + lowbit j ≤ k ∧ k - lowbit k < j + lowbit j ∧ k < t.length
      · obtain ⟨hc1, hc2, hc3⟩ := hcond
        have hF3 := sub_lowbit_le k (j + lowbit j) (by omega) hc1 hc2
        have hF1 := lowbit_add_lowbit j h.1
        have hle := lowbit_le j
        have hgood : j ≤ k ∧ k - lowbit k < j ∧ k < t.length := by
          refine ⟨by omega, by omega, hc3⟩
        rw [if_pos ⟨hc1, hc2, hc3⟩, if_pos hgood]
      · by_cases hcond2 : j ≤ k ∧ k - lowbit k < j ∧ k < t.length
        · exfalso
          apply hcond
          obtain ⟨hd1, hd2, hd3⟩ := hcond2
          have hjk : j < k := by omega
          have hup : j + lowbit j ≤ k := by
            by_contra hno
            have hr1 : 0 < k - j := by omega
            have hr2 : k - j < lowbit j := by omega
            have := lowbit_add_of_lt j (k - j) hr1 hr2
            have hkeq : j + (k - j) = k := by omega
            rw [hkeq] at this
            have := lowbit_le (k - j)
            omega
          exact ⟨hup, by omega, hd3⟩
        · rw [if_neg hcond, if_neg hcond2]
  | case2 t j v h =>
    intro k
    rw [fenwickUpdateLoop, dif_neg h]
    have : ¬ (j ≤ k ∧ k - lowbit k < j ∧ k < t.length) := by
      intro hc
      exact h ⟨hj, by omega⟩
    simp [this]

/-- The classical Fenwick invariant: the backing array has `n + 1`
slots and slot `j` (for `1 ≤ j ≤ n`) stores the sum of the weights
with indices in `[j - lowbit j, j)`. -/
def treeInv (t : List ℤ) (w : ℕ → ℤ) (n : ℕ) : Prop :=
  t.length = n + 1 ∧
    ∀ j, 0 < j → j ≤ n → t.getD j 0 = ∑ k in Finset.Ico (j - lowbit j) j, w k

theorem treeInv_congr {t : List ℤ} {w w' : ℕ → ℤ} {n : ℕ}
    (hInv : treeInv t w n) (hw : ∀ k, k < n → w k = w' k) :
    treeInv t w' n := by
  refine ⟨hInv.1, fun j hj hjn => ?_⟩
  rw [hInv.2 j hj hjn]
  apply Finset.sum_congr rfl
  intro k hk
  have := Finset.mem_Ico.mp hk
  exact hw k (by omega)

theorem treeInv_replicate (n : ℕ) :
    treeInv (List.replicate (n + 1) (0 : ℤ)) (fun _ => 0) n := by
  constructor
  · simp
  · intro j hj hjn
    have : (List.replicate (n + 1) (0 : ℤ)).getD j 0 = 0 := by
      rw [List.getD_eq_getElem?_getD, List.getElem?_replicate]
      rw [if_pos (by omega : j < n + 1)]
      rfl
    rw [this]
    simp

theorem update_treeInv {t : List ℤ} {w : ℕ → ℤ} {n : ℕ}
    (hInv : treeInv t w n) (idx : ℕ) (hidx : idx < n) (v : ℤ) :
    treeInv (FenwickTree.update t idx v)
      (fun k => if k = idx then w k + v else w k) n := by
  constructor
  · rw [FenwickTree.update, fenwickUpdateLoop_length]
    exact hInv.1
  · intro j hj hjn
    rw [FenwickTree.update, fenwickUpdateLoop_getD t (idx + 1) v (by omega) j]
    rw [hInv.2 j hj hjn]
    have hsplit : ∑ k in Finset.Ico (j - lowbit j) j,
        (if k = idx then w k + v else w k)
        = (∑ k in Finset.Ico (j - lowbit j) j, w k) +
          (if idx ∈ Finset.Ico (j - lowbit j) j then v else 0) := by
      rw [← Finset.sum_ite_eq' (Finset.Ico (j - lowbit j) j) idx (fun _ => v)]
      rw [← Finset.sum_add_distrib]
      apply Finset.sum_congr rfl
      intro k _
      by_cases hki : k = idx
      · simp [hki]
      · simp [hki]
    rw [hsplit]
    congr 1
    have hlen : t.length = n + 1 := hInv.1
    by_cases hc : idx + 1 ≤ j ∧ j - lowbit j < idx + 1 ∧ j < t.length
    · rw [if_pos hc, if_pos (Finset.mem_Ico.mpr ⟨by omega, by omega⟩)]
    · rw [if_neg hc, if_neg (fun hmem => ?_)]
      have := Finset.mem_Ico.mp hmem
      exact hc ⟨by omega, by omega, by omega⟩

theorem fenwickQueryLoop_eq_sum {t : List ℤ} {w : ℕ → ℤ} {n : ℕ}
    (hInv : treeInv t w n) :
    ∀ j, j ≤ n → fenwickQueryLoop t j = ∑ k in Finset.range j, w k := by
  intro j
  induction j using Nat.strong_induction_on with
  | _ j ih =>
    intro hj
    rcases Nat.eq_zero_or_pos j with h0 | h0
    · subst h0
      rw [fenwickQueryLoop]
      simp
    · rw [fenwickQueryLoop, dif_pos h0]
      have hlb := lowbit_pos j h0
      have hlbe := lowbit_le j
      rw [ih (j - lowbit j) (by omega) (by omega)]
      rw [hInv.2 j h0 hj]
      rw [Finset.range_eq_Ico]
      have hcons := Finset.sum_Ico_consecutive w
        (Nat.zero_le (j - lowbit j)) (by omega : j - lowbit j ≤ j)
      omega

theorem fenwickQueryLoop_zero (t : List ℤ) : fenwickQueryLoop t 0 = 0 := by
  rw [fenwickQueryLoop]
  simp

theorem query_eq_sum {t : List ℤ} {w : ℕ → ℤ} {n : ℕ}
    (hInv : treeInv t w n) (i : ℤ) (hi2 : i < n) :
    FenwickTree.query t i = ∑ k in Finset.range (i + 1).toNat, w k := by
  rw [FenwickTree.query]
  exact fenwickQueryLoop_eq_sum hInv (i + 1).toNat (by omega)

theorem query_neg_one (t : List ℤ) : FenwickTree.query t (-1) = 0 := by
  rw [FenwickTree.query]
  norm_num [fenwickQueryLoop_zero]

/-- A sequence of `update(index, delta)` calls, applied in order. -/
def applyOps (t : List ℤ) (ops : List (ℕ × ℤ)) : List ℤ :=
  ops.foldl (fun acc op => FenwickTree.update acc op.1 op.2) t

/-- The naive recomputation of the weights after the same sequence of
`update` calls. -/
def opsWeight (w : ℕ → ℤ) (ops : List (ℕ × ℤ)) : ℕ → ℤ :=
  ops.foldl (fun acc op k => if k = op.1 then acc k + op.2 else acc k) w

theorem applyOps_treeInv {t : List ℤ} {w : ℕ → ℤ} {n : ℕ}
    {ops : List (ℕ × ℤ)} (hInv : treeInv t w n)
    (hops : ∀ op ∈ ops, op.1 < n) :
    treeInv (applyOps t ops) (opsWeight w ops) n := by
  induction ops generalizing t w with
  | nil =>
    rw [applyOps, opsWeight]
    simpa using hInv
  | cons op ops ih =>
    rw [applyOps, opsWeight, List.foldl_cons, List.foldl_cons]
    exact ih (update_treeInv hInv op.1 (hops op (List.mem_cons_self op ops)) op.2)
      (fun o ho => hops o (List.mem_cons_of_mem op ho))

theorem initFenwickTree_treeInv (values : List ℤ) :
    treeInv (initFenwickTree values) (fun k => values.getD k 0)
      values.length := by
  suffices h : ∀ m, m ≤ values.length →
      treeInv ((List.range m).foldl
          (fun t i => FenwickTree.update t i (values.getD i 0))
          (List.replicate (values.length + 1) 0))
        (fun k => if k < m then values.getD k 0 else 0) values.length by
    have hfin := h values.length le_rfl
    rw [initFenwickTree]
    exact treeInv_congr hfin (fun k hk => by simp [hk])
  intro m
  induction m with
  | zero =>
    intro _
    simpa using treeInv_replicate values.length
  | succ m ih =>
    intro hm
    rw [List.range_succ, List.foldl_append, List.foldl_cons, List.foldl_nil]
    have h1 := update_treeInv (ih (by omega)) m (by omega) (values.getD m 0)
    apply treeInv_congr h1
    intro k _
    by_cases hkm : k = m
    · subst hkm
      simp
    · by_cases hklt : k < m
      · simp [hkm, hklt, show k < m + 1 by omega]
      · simp [hkm, hklt, show ¬ k < m + 1 by omega]

/-- C1: for every initial weight sequence and every index `i` in
`[0, n)`, `query(i)` equals the prefix sum `w[0] + ... + w[i]` of the
weights, both right after construction (take `ops = []`) and after any
sequence of in-range `update(j, delta)` calls, where the reference
weights are recomputed naively by `opsWeight`; moreover
`query(-1) = 0`. -/
theorem fenwick_prefix_sum_correct (values : List ℤ) (ops : List (ℕ × ℤ))
    (hops : ∀ op ∈ ops, op.1 < values.length)
    (i : ℕ) (hi : i < values.length) :
    FenwickTree.query (applyOps (initFenwickTree values) ops) (i : ℤ) =
      (∑ k in Finset.range (i + 1),
        opsWeight (fun k => values.getD k 0) ops k) ∧
    FenwickTree.query (applyOps (initFenwickTree values) ops) (-1) = 0 := by
  have hInv := applyOps_treeInv (initFenwickTree_treeInv values) hops
  constructor
  · rw [query_eq_sum hInv (i : ℤ) (by exact_mod_cast hi)]
    congr 1
  · exact query_neg_one _

theorem fenwick_prefix_sum_correct_witness :
    (∀ op ∈ [((0 : ℕ), (3 : ℤ))], op.1 < 2) ∧ (1 < 2) ∧
    (FenwickTree.query (applyOps (initFenwickTree [1, 2]) [(0, 3)])
        ((1 : ℕ) : ℤ) =
      (∑ k in Finset.range 2,
        opsWeight (fun k => [(1 : ℤ), 2].getD k 0) [(0, 3)] k) ∧
    FenwickTree.query (applyOps (initFenwickTree [1, 2]) [(0, 3)]) (-1)
      = 0) :=
  ⟨by decide, by decide,
    fenwick_prefix_sum_correct [1, 2] [(0, 3)] (by decide) 1 (by decide)⟩

/-!
`VirtualScroll` (`src/utils/virtual-scroll.ts`).  DOM containers are
not modelled: `scrollTop` and `clientHeight` are parameters of the
visible-items query, and `updateTotalHeight` is represented by the
total height value it computes.
-/

/-- The `VirtualScroll` class state: the item payloads and the Fenwick
tree of item heights (`itemHeightTree`), plus the constructor
configuration. -/
structure VirtualScroll (T : Type) where
  items : List T
  estimatedItemHeight : ℤ
  itemPadding : ℤ
  itemHeightTree : List ℤ

namespace VirtualScroll

variable {T : Type}

/-- The constructor: stores the items and runs `initItemHeightData`,
seeding the Fenwick tree with `items.length` copies of
`estimatedItemHeight`. -/
def construct (items : List T) (estimatedItemHeight itemPadding : ℤ) :
    VirtualScroll T :=
  { items := items
    estimatedItemHeight := estimatedItemHeight
    itemPadding := itemPadding
    itemHeightTree :=
      initFenwickTree (List.replicate items.length estimatedItemHeight) }

/-- The total height computed by `updateTotalHeight`:
`query(length - 1)` on the height tree. -/
def totalHeight (s : VirtualScroll T) : ℤ :=
  FenwickTree.query s.itemHeightTree
    (FenwickTree.length s.itemHeightTree - 1)

/-- The `while` loop of `binarySearch`; `midIndex` is inlined.  Indices
are `ℤ` because for an empty list the source computes
`highIndex = -1`. -/
def binarySearchLoop (t : List ℤ) (value lowIndex highIndex : ℤ) : ℤ :=
  if lowIndex < highIndex then
    if FenwickTree.query t ((lowIndex + highIndex) / 2) < value then
      binarySearchLoop t value ((lowIndex + highIndex) / 2 + 1) highIndex
    else
      binarySearchLoop t value lowIndex ((lowIndex + highIndex) / 2)
  else lowIndex
termination_by (highIndex - lowIndex).toNat
decreasing_by
  · omega
  · omega

/-- `VirtualScroll.binarySearch(value)`: search over
`[0, tree.length - 1]` where `tree.length` is the `FenwickTree`
`length` getter. -/
def binarySearch (s : VirtualScroll T) (value : ℤ) : ℤ :=
  binarySearchLoop s.itemHeightTree value 0
    (FenwickTree.length s.itemHeightTree - 1)

/-- The `(startIndex, endIndex)` pair computed by
`calculateVisibleItemsGenerator`:
`startIndex = binarySearch(lowerBound)` and
`endIndex = binarySearch(upperBound) + 1`. -/
def visibleRange (s : VirtualScroll T)
    (scrollTop clientHeight padding : ℤ) : ℤ × ℤ :=
  (s.binarySearch (max 0 (scrollTop - padding * s.estimatedItemHeight)),
   s.binarySearch
      (scrollTop + clientHeight + padding * s.estimatedItemHeight) + 1)

/-- The indices `i = startIndex, ..., endIndex - 1` enumerated by the
generator's `for` loop. -/
def visibleIndices (s : VirtualScroll T)
    (scrollTop clientHeight padding : ℤ) : List ℤ :=
  (List.range ((s.visibleRange scrollTop clientHeight padding).2 -
      (s.visibleRange scrollTop clientHeight padding).1).toNat).map
    (fun k : ℕ =>
      (s.visibleRange scrollTop clientHeight padding).1 + (k : ℤ))

/-- The pairs `{item: this.items[i], index: i}` yielded by
`calculateVisibleItemsGenerator`; an out-of-bounds read
`this.items[i]` (JavaScript `undefined`) is `none`. -/
def calculateVisibleItemsGenerator (s : VirtualScroll T)
    (scrollTop clientHeight padding : ℤ) : List (Option T × ℤ) :=
  (s.visibleIndices scrollTop clientHeight padding).map
    (fun i => (if 0 ≤ i then s.items.get? i.toNat else none, i))

/-- `VirtualScroll.updateItemData(index, height)`: applies the delta
`height - queryRange(index, index)` to the height tree. -/
def updateItemData (s : VirtualScroll T) (index : ℕ) (height : ℤ) :
    VirtualScroll T :=
  { s with itemHeightTree :=
      (FenwickTree.update s.itemHeightTree index
        (height - FenwickTree.queryRange s.itemHeightTree index index)) }

/-- `VirtualScroll.getItemData(index)`: the `(height, top)` pair. -/
def getItemData (s : VirtualScroll T) (index : ℤ) : ℤ × ℤ :=
  (FenwickTree.queryRange s.itemHeightTree index index,
   FenwickTree.query s.itemHeightTree (index - 1))

/-- A sequence of `updateItemData(index, height)` calls applied in
order; together with `construct` this generates the reachable engine
states. -/
def applyUpdates (s : VirtualScroll T) (ops : List (ℕ × ℤ)) :
    VirtualScroll T :=
  ops.foldl (fun acc op => acc.updateItemData op.1 op.2) s

end VirtualScroll

/-- The item heights after a sequence of `updateItemData` calls: each
call overwrites the height at its index. -/
def heightsAfter (w : ℕ → ℤ) (ops : List (ℕ × ℤ)) : ℕ → ℤ :=
  ops.foldl (fun acc op k => if k = op.1 then op.2 else acc k) w

theorem queryRange_single {t : List ℤ} {w : ℕ → ℤ} {n : ℕ}
    (hInv : treeInv t w n) (idx : ℕ) (hidx : idx < n) :
    FenwickTree.queryRange t (idx : ℤ) (idx : ℤ) = w idx := by
  rw [FenwickTree.queryRange]
  rcases Nat.eq_zero_or_pos idx with h0 | h0
  · subst h0
    rw [if_neg (by norm_num)]
    push_cast
    rw [query_eq_sum hInv 0 (by exact_mod_cast hidx)]
    norm_num
  · rw [if_pos (by exact_mod_cast h0)]
    rw [query_eq_sum hInv (idx : ℤ) (by exact_mod_cast hidx),
      query_eq_sum hInv ((idx : ℤ) - 1) (by push_cast; omega)]
    have h1 : ((idx : ℤ) + 1).toNat = idx + 1 := by omega
    have h2 : ((idx : ℤ) - 1 + 1).toNat = idx := by omega
    rw [h1, h2, Finset.sum_range_succ]
    ring

theorem updateItemData_treeInv {T : Type} {s : VirtualScroll T}
    {w : ℕ → ℤ} {n : ℕ} (hInv : treeInv s.itemHeightTree w n)
    (idx : ℕ) (hidx : idx < n) (h : ℤ) :
    treeInv (s.updateItemData idx h).itemHeightTree
      (fun k => if k = idx then h else w k) n := by
  show treeInv
    (FenwickTree.update s.itemHeightTree idx
      (h - FenwickTree.queryRange s.itemHeightTree idx idx)) _ n
  rw [queryRange_single hInv idx hidx]
  have h1 := update_treeInv hInv idx hidx (h - w idx)
  apply treeInv_congr h1
  intro k _
  by_cases hk : k = idx
  · subst hk
    simp
  · simp [hk]

theorem applyUpdates_nil {T : Type} (s : VirtualScroll T) :
    s.applyUpdates [] = s := rfl

theorem applyUpdates_cons {T : Type} (s : VirtualScroll T)
    (op : ℕ × ℤ) (ops : List (ℕ × ℤ)) :
    s.applyUpdates (op :: ops) =
      (s.updateItemData op.1 op.2).applyUpdates ops := rfl

theorem applyUpdates_items {T : Type} (s : VirtualScroll T)
    (ops : List (ℕ × ℤ)) : (s.applyUpdates ops).items = s.items := by
  induction ops generalizing s with
  | nil => rfl
  | cons op ops ih =>
    rw [applyUpdates_cons]
    exact ih (s.updateItemData op.1 op.2)

theorem applyUpdates_estimatedItemHeight {T : Type} (s : VirtualScroll T)
    (ops : List (ℕ × ℤ)) :
    (s.applyUpdates ops).estimatedItemHeight = s.estimatedItemHeight := by
  induction ops generalizing s with
  | nil => rfl
  | cons op ops ih =>
    rw [applyUpdates_cons]
    exact ih (s.updateItemData op.1 op.2)

theorem applyUpdates_itemPadding {T : Type} (s : VirtualScroll T)
    (ops : List (ℕ × ℤ)) :
    (s.applyUpdates ops).itemPadding = s.itemPadding := by
  induction ops generalizing s with
  | nil => rfl
  | cons op ops ih =>
    rw [applyUpdates_cons]
    exact ih (s.updateItemData op.1 op.2)

theorem applyUpdates_treeInv {T : Type} {s : VirtualScroll T}
    {w : ℕ → ℤ} {n : ℕ} (hInv : treeInv s.itemHeightTree w n)
    (ops : List (ℕ × ℤ)) (hops : ∀ op ∈ ops, op.1 < n) :
    treeInv (s.applyUpdates ops).itemHeightTree (heightsAfter w ops) n := by
  induction ops generalizing s w with
  | nil => exact hInv
  | cons op ops ih =>
    rw [applyUpdates_cons]
    rw [show heightsAfter w (op :: ops) =
      heightsAfter (fun k => if k = op.1 then op.2 else w k) ops from rfl]
    exact ih
      (updateItemData_treeInv hInv op.1
        (hops op (List.mem_cons_self op ops)) op.2)
      (fun o ho => hops o (List.mem_cons_of_mem op ho))

theorem construct_treeInv {T : Type} (items : List T) (est pad : ℤ) :
    treeInv (VirtualScroll.construct items est pad).itemHeightTree
      (fun k => if k < items.length then est else 0) items.length := by
  have h1 := initFenwickTree_treeInv (List.replicate items.length est)
  rw [List.length_replicate] at h1
  apply treeInv_congr h1
  intro k hk
  simp [List.getD_eq_getElem?_getD, List.getElem?_replicate, hk]

/-- A reachable engine state: construction followed by a sequence of
`updateItemData` calls. -/
def reachableState {T : Type} (items : List T) (est pad : ℤ)
    (ops : List (ℕ × ℤ)) : VirtualScroll T :=
  (VirtualScroll.construct items est pad).applyUpdates ops

theorem reachableState_treeInv {T : Type} (items : List T) (est pad : ℤ)
    (ops : List (ℕ × ℤ)) (hops : ∀ op ∈ ops, op.1 < items.length) :
    treeInv (reachableState items est pad ops).itemHeightTree
      (heightsAfter (fun k => if k < items.length then est else 0) ops)
      items.length :=
  applyUpdates_treeInv (construct_treeInv items est pad) ops hops

theorem reachableState_items {T : Type} (items : List T) (est pad : ℤ)
    (ops : List (ℕ × ℤ)) :
    (reachableState items est pad ops).items = items :=
  applyUpdates_items _ ops

theorem reachableState_estimatedItemHeight {T : Type} (items : List T)
    (est pad : ℤ) (ops : List (ℕ × ℤ)) :
    (reachableState items est pad ops).estimatedItemHeight = est :=
  applyUpdates_estimatedItemHeight _ ops

theorem reachableState_itemPadding {T : Type} (items : List T)
    (est pad : ℤ) (ops : List (ℕ × ℤ)) :
    (reachableState items est pad ops).itemPadding = pad :=
  applyUpdates_itemPadding _ ops

theorem heightsAfter_nonneg {w : ℕ → ℤ} (hw : ∀ k, 0 ≤ w k)
    (ops : List (ℕ × ℤ)) (hops : ∀ op ∈ ops, 0 ≤ op.2) :
    ∀ k, 0 ≤ heightsAfter w ops k := by
  induction ops generalizing w with
  | nil => exact hw
  | cons op ops ih =>
    rw [show heightsAfter w (op :: ops) =
      heightsAfter (fun k => if k = op.1 then op.2 else w k) ops from rfl]
    apply ih
    · intro k
      by_cases hk : k = op.1
      · simp only [hk, if_pos]
        exact hops op (List.mem_cons_self op ops)
      · simp only [hk, if_neg, not_false_iff]
        exact hw k
    · exact fun o ho => hops o (List.mem_cons_of_mem op ho)

theorem query_mono {t : List ℤ} {w : ℕ → ℤ} {n : ℕ}
    (hInv : treeInv t w n) (hw : ∀ k, 0 ≤ w k) (i j : ℤ)
    (hij : i ≤ j) (hj : j < n) :
    FenwickTree.query t i ≤ FenwickTree.query t j := by
  rw [query_eq_sum hInv i (by omega), query_eq_sum hInv j hj]
  apply Finset.sum_le_sum_of_subset_of_nonneg
  · exact Finset.range_subset.mpr (by omega)
  · exact fun k _ _ => hw k

/-- Invariant-based characterisation of the `binarySearch` loop over a
tree with non-negative weights: the result stays in `[low, high]`,
every index strictly below it has prefix sum `< value`, and the result
either has prefix sum `≥ value` or is the fallback `n - 1`. -/
theorem binarySearchLoop_spec {t : List ℤ} {w : ℕ → ℤ} {n : ℕ}
    (hInv : treeInv t w n) (hw : ∀ k, 0 ≤ w k) (value : ℤ) :
    ∀ m : ℕ, ∀ lowIndex highIndex : ℤ,
      (highIndex - lowIndex).toNat ≤ m →
      0 ≤ lowIndex → lowIndex ≤ highIndex → highIndex ≤ (n : ℤ) - 1 →
      (∀ i : ℤ, 0 ≤ i → i < lowIndex →
        FenwickTree.query t i < value) →
      (highIndex = (n : ℤ) - 1 ∨
        value ≤ FenwickTree.query t highIndex) →
      (lowIndex ≤ VirtualScroll.binarySearchLoop t value lowIndex highIndex ∧
       VirtualScroll.binarySearchLoop t value lowIndex highIndex ≤ highIndex ∧
       (∀ i : ℤ, 0 ≤ i →
          i < VirtualScroll.binarySearchLoop t value lowIndex highIndex →
          FenwickTree.query t i < value) ∧
       (VirtualScroll.binarySearchLoop t value lowIndex highIndex = (n : ℤ) - 1 ∨
        value ≤ FenwickTree.query t
          (VirtualScroll.binarySearchLoop t value lowIndex highIndex))) := by
  intro m
  induction m with
  | zero =>
    intro low high hm h0 hlh hhn hlow hhigh
    have heq : low = high := by omega
    rw [VirtualScroll.binarySearchLoop, if_neg (by omega)]
    subst heq
    exact ⟨le_rfl, le_rfl, hlow, hhigh⟩
  | succ m ih =>
    intro low high hm h0 hlh hhn hlow hhigh
    by_cases hlt : low < high
    · rw [VirtualScroll.binarySearchLoop, if_pos hlt]
      have hmid1 : low ≤ (low + high) / 2 := by omega
      have hmid2 : (low + high) / 2 < high := by omega
      by_cases hq : FenwickTree.query t ((low + high) / 2) < value
      · rw [if_pos hq]
        have hlow2 : ∀ i : ℤ, 0 ≤ i → i < (low + high) / 2 + 1 →
            FenwickTree.query t i < value := by
          intro i hi hilt
          rcases lt_or_le i low with hc | hc
          · exact hlow i hi hc
          · calc FenwickTree.query t i
                ≤ FenwickTree.query t ((low + high) / 2) :=
                  query_mono hInv hw i ((low + high) / 2) (by omega)
                    (by omega)
              _ < value := hq
        have h := ih ((low + high) / 2 + 1) high (by omega) (by omega)
          (by omega) hhn hlow2 hhigh
        exact ⟨by have := h.1; omega, h.2.1, h.2.2.1, h.2.2.2⟩
      · rw [if_neg hq]
        have h := ih low ((low + high) / 2) (by omega) h0 (by omega)
          (by omega) hlow (Or.inr (by omega))
        exact ⟨h.1, by have := h.2.1; omega, h.2.2.1, h.2.2.2⟩
    · rw [VirtualScroll.binarySearchLoop, if_neg hlt]
      have heq : low = high := by omega
      subst heq
      exact ⟨le_rfl, le_rfl, hlow, hhigh⟩

/-- Packaged form of `binarySearchLoop_spec` for a full search over
`[0, n - 1]`. -/
theorem binarySearch_spec {T : Type} {s : VirtualScroll T} {w : ℕ → ℤ}
    {n : ℕ} (hInv : treeInv s.itemHeightTree w n) (hw : ∀ k, 0 ≤ w k)
    (hn : 1 ≤ n) (value : ℤ) :
    0 ≤ s.binarySearch value ∧
    s.binarySearch value ≤ (n : ℤ) - 1 ∧
    (∀ i : ℤ, 0 ≤ i → i < s.binarySearch value →
      FenwickTree.query s.itemHeightTree i < value) ∧
    (s.binarySearch value = (n : ℤ) - 1 ∨
      value ≤ FenwickTree.query s.itemHeightTree
        (s.binarySearch value)) := by
  have hlen : FenwickTree.length s.itemHeightTree = (n : ℤ) := by
    rw [FenwickTree.length, hInv.1]
    push_cast
    ring
  have h := binarySearchLoop_spec hInv hw value
    ((n : ℤ) - 1 - 0).toNat 0 ((n : ℤ) - 1) le_rfl le_rfl (by omega)
    le_rfl (by intro i hi hilt; omega) (Or.inl rfl)
  rw [VirtualScroll.binarySearch, hlen]
  exact ⟨h.1, h.2.1, h.2.2.1, by
    rcases h.2.2.2 with h1 | h1
    · exact Or.inl h1
    · exact Or.inr h1⟩

/-- C2: for every reachable engine state with `n ≥ 1` items (built
with a non-negative estimated height, updated at in-range indices with
non-negative measured heights, as the spec's state space requires) and
every value `v`, `binarySearch v` returns an index `r` in `[0, n-1]`
such that every index strictly below `r` has prefix sum `< v` — hence
`r` is the smallest qualifying index and ties from zero-height items
resolve to the smallest index — and either `prefixSum(r) ≥ v` or `r`
is the fallback `n - 1` (the case where `v` exceeds the total
extent). -/
theorem binarySearch_smallest_qualifying {T : Type} (items : List T)
    (est pad : ℤ) (ops : List (ℕ × ℤ)) (hest : 0 ≤ est)
    (hops : ∀ op ∈ ops, op.1 < items.length ∧ 0 ≤ op.2)
    (hn : 1 ≤ items.length) (value : ℤ) :
    0 ≤ (reachableState items est pad ops).binarySearch value ∧
    (reachableState items est pad ops).binarySearch value ≤
      (items.length : ℤ) - 1 ∧
    (∀ i : ℤ, 0 ≤ i →
      i < (reachableState items est pad ops).binarySearch value →
      FenwickTree.query (reachableState items est pad ops).itemHeightTree
        i < value) ∧
    (value ≤
      FenwickTree.query (reachableState items est pad ops).itemHeightTree
        ((reachableState items est pad ops).binarySearch value) ∨
     (reachableState items est pad ops).binarySearch value =
      (items.length : ℤ) - 1) := by
  have hInv := reachableState_treeInv items est pad ops
    (fun op ho => (hops op ho).1)
  have hw := heightsAfter_nonneg
    (w := fun k => if k < items.length then est else 0)
    (by intro k; by_cases hk : k < items.length <;> simp [hk, hest])
    ops (fun op ho => (hops op ho).2)
  have h := binarySearch_spec hInv hw hn value
  exact ⟨h.1, h.2.1, h.2.2.1, h.2.2.2.symm⟩

theorem binarySearch_smallest_qualifying_witness :
    ((0 : ℤ) ≤ 50) ∧
    (∀ op ∈ ([] : List (ℕ × ℤ)),
      op.1 < ([()] : List Unit).length ∧ 0 ≤ op.2) ∧
    (1 ≤ ([()] : List Unit).length) ∧
    (0 ≤ (reachableState [()] 50 5 []).binarySearch 0 ∧
     (reachableState [()] 50 5 []).binarySearch 0 ≤
       (([()] : List Unit).length : ℤ) - 1 ∧
     (∀ i : ℤ, 0 ≤ i →
       i < (reachableState [()] 50 5 []).binarySearch 0 →
       FenwickTree.query (reachableState [()] 50 5 []).itemHeightTree
         i < 0) ∧
     ((0 : ℤ) ≤
       FenwickTree.query (reachableState [()] 50 5 []).itemHeightTree
         ((reachableState [()] 50 5 []).binarySearch 0) ∨
      (reachableState [()] 50 5 []).binarySearch 0 =
       (([()] : List Unit).length : ℤ) - 1)) :=
  ⟨by norm_num, by simp, by simp,
    binarySearch_smallest_qualifying [()] 50 5 [] (by norm_num)
      (by simp) (by simp) 0⟩

/-- If `m` is in range, everything below `m` is below `value` and
`prefixSum(m) ≥ value`, then the search returns exactly `m`. -/
theorem binarySearch_eq {T : Type} {s : VirtualScroll T} {w : ℕ → ℤ}
    {n : ℕ} (hInv : treeInv s.itemHeightTree w n) (hw : ∀ k, 0 ≤ w k)
    (hn : 1 ≤ n) (value m : ℤ) (hm0 : 0 ≤ m) (hmn : m ≤ (n : ℤ) - 1)
    (hbelow : ∀ i : ℤ, 0 ≤ i → i < m →
      FenwickTree.query s.itemHeightTree i < value)
    (hat : value ≤ FenwickTree.query s.itemHeightTree m) :
    s.binarySearch value = m := by
  have hc := binarySearch_spec hInv hw hn value
  by_contra hne
  rcases lt_or_gt_of_ne hne with hlt | hgt
  · rcases hc.2.2.2 with he | hq
    · omega
    · have := hbelow _ hc.1 hlt
      omega
  · have := hc.2.2.1 m hm0 hgt
    omega

/-- C3 (amended): for every reachable engine state and all
`scrollOffset, viewportExtent ≥ 0`, every item whose cumulative-height
interval `[prefixSum(i-1), prefixSum(i)]` meets
`[scrollOffset, scrollOffset + viewportExtent]` has its index inside
the returned half-open range — provided the padding margin
`itemPadding * estimatedItemHeight` is at least 1.  (With a zero
margin an item touching the viewport edge exactly can be excluded; see
the counterexample.) -/
theorem visible_range_containment_amended {T : Type} (items : List T)
    (est pad : ℤ) (ops : List (ℕ × ℤ)) (hest : 0 ≤ est)
    (hops : ∀ op ∈ ops, op.1 < items.length ∧ 0 ≤ op.2)
    (scrollOffset viewportExtent : ℤ) (hs : 0 ≤ scrollOffset)
    (hv : 0 ≤ viewportExtent) (hmargin : 1 ≤ pad * est)
    (i : ℕ) (hi : i < items.length)
    (htop : FenwickTree.query
        (reachableState items est pad ops).itemHeightTree ((i : ℤ) - 1)
      ≤ scrollOffset + viewportExtent)
    (hbot : scrollOffset ≤ FenwickTree.query
        (reachableState items est pad ops).itemHeightTree (i : ℤ)) :
    ((reachableState items est pad ops).visibleRange scrollOffset
        viewportExtent
        (reachableState items est pad ops).itemPadding).1 ≤ (i : ℤ) ∧
    (i : ℤ) < ((reachableState items est pad ops).visibleRange
        scrollOffset viewportExtent
        (reachableState items est pad ops).itemPadding).2 := by
  have hInv := reachableState_treeInv items est pad ops
    (fun op ho => (hops op ho).1)
  have hw := heightsAfter_nonneg
    (w := fun k => if k < items.length then est else 0)
    (by intro k; by_cases hk : k < items.length <;> simp [hk, hest])
    ops (fun op ho => (hops op ho).2)
  have hn : 1 ≤ items.length := by omega
  rw [VirtualScroll.visibleRange, reachableState_itemPadding,
    reachableState_estimatedItemHeight]
  have hlower := binarySearch_spec hInv hw hn
    (max 0 (scrollOffset - pad * est))
  have hupper := binarySearch_spec hInv hw hn
    (scrollOffset + viewportExtent + pad * est)
  constructor
  · by_contra hgt
    have hq := hlower.2.2.1 (i : ℤ) (by omega) (by omega)
    have : max 0 (scrollOffset - pad * est) ≤ scrollOffset := by omega
    omega
  · simp only
    by_contra hgt
    rcases hupper.2.2.2 with he | hq
    · omega
    · have hmono := query_mono hInv hw
        ((reachableState items est pad ops).binarySearch
          (scrollOffset + viewportExtent + pad * est))
        ((i : ℤ) - 1) (by omega) (by omega)
      omega

theorem visible_range_containment_amended_witness :
    ((0 : ℤ) ≤ 50) ∧
    (∀ op ∈ ([] : List (ℕ × ℤ)),
      op.1 < ([(), ()] : List Unit).length ∧ 0 ≤ op.2) ∧
    ((0 : ℤ) ≤ 0) ∧ ((0 : ℤ) ≤ 60) ∧ ((1 : ℤ) ≤ 5 * 50) ∧
    (0 < ([(), ()] : List Unit).length) ∧
    (FenwickTree.query
        (reachableState [(), ()] 50 5 []).itemHeightTree ((0 : ℤ) - 1)
      ≤ 0 + 60) ∧
    ((0 : ℤ) ≤ FenwickTree.query
        (reachableState [(), ()] 50 5 []).itemHeightTree (0 : ℤ)) ∧
    (((reachableState [(), ()] 50 5 []).visibleRange 0 60
        (reachableState [(), ()] 50 5 []).itemPadding).1 ≤ (0 : ℤ) ∧
     (0 : ℤ) < ((reachableState [(), ()] 50 5 []).visibleRange 0 60
        (reachableState [(), ()] 50 5 []).itemPadding).2) := by
  have hInv := reachableState_treeInv ([(), ()] : List Unit) 50 5 []
    (by simp)
  have htop : FenwickTree.query
      (reachableState [(), ()] 50 5 []).itemHeightTree ((0 : ℤ) - 1)
      ≤ 0 + 60 := by
    rw [show ((0 : ℤ) - 1) = -1 by norm_num, query_neg_one]
    norm_num
  have hbot : (0 : ℤ) ≤ FenwickTree.query
      (reachableState [(), ()] 50 5 []).itemHeightTree (0 : ℤ) := by
    rw [query_eq_sum hInv 0 (by norm_num)]
    rw [show ((0 : ℤ) + 1).toNat = 1 from rfl, Finset.sum_range_one]
    norm_num [heightsAfter]
  exact ⟨by norm_num, by simp, le_rfl, by norm_num, by norm_num,
    by simp, htop, hbot,
    visible_range_containment_amended [(), ()] 50 5 [] (by norm_num)
      (by simp) 0 60 le_rfl (by norm_num) (by norm_num) 0 (by simp)
      htop hbot⟩

/-- C3 counterexample setup: three items of estimated height 10,
`itemPadding = 0`, item 1 measured at height 0, so the heights are
`[10, 0, 10]`.  Item 1 occupies the degenerate interval `[10, 10]`,
which touches the viewport `[0, 10]`, yet the returned range is
`[0, 1)`. -/
theorem zero_margin_visibleRange :
    (reachableState ([0, 0, 0] : List ℕ) 10 0 [(1, 0)]).visibleRange 0 10
      (reachableState ([0, 0, 0] : List ℕ) 10 0 [(1, 0)]).itemPadding
      = (0, 1) ∧
    FenwickTree.query
      (reachableState ([0, 0, 0] : List ℕ) 10 0 [(1, 0)]).itemHeightTree
      0 = 10 ∧
    FenwickTree.query
      (reachableState ([0, 0, 0] : List ℕ) 10 0 [(1, 0)]).itemHeightTree
      1 = 10 := by
  have hInv := reachableState_treeInv ([0, 0, 0] : List ℕ) 10 0 [(1, 0)]
    (by simp)
  have hw : ∀ k, 0 ≤ heightsAfter
      (fun k => if k < ([0, 0, 0] : List ℕ).length then (10 : ℤ) else 0)
      [(1, 0)] k := by
    apply heightsAfter_nonneg
    · intro k
      split <;> norm_num
    · simp
  have hq0 : FenwickTree.query
      (reachableState ([0, 0, 0] : List ℕ) 10 0 [(1, 0)]).itemHeightTree
      0 = 10 := by
    rw [query_eq_sum hInv 0 (by norm_num)]
    rw [show ((0 : ℤ) + 1).toNat = 1 from rfl, Finset.sum_range_one]
    rfl
  have hq1 : FenwickTree.query
      (reachableState ([0, 0, 0] : List ℕ) 10 0 [(1, 0)]).itemHeightTree
      1 = 10 := by
    rw [query_eq_sum hInv 1 (by norm_num)]
    rw [show ((1 : ℤ) + 1).toNat = 2 from rfl, Finset.sum_range_succ,
      Finset.sum_range_one]
    rfl
  have hbs0 : (reachableState ([0, 0, 0] : List ℕ) 10 0
      [(1, 0)]).binarySearch 0 = 0 :=
    binarySearch_eq hInv hw (by norm_num) 0 0 le_rfl (by norm_num)
      (fun i hi hlt => absurd hlt (by omega)) (by rw [hq0]; norm_num)
  have hbs10 : (reachableState ([0, 0, 0] : List ℕ) 10 0
      [(1, 0)]).binarySearch 10 = 0 :=
    binarySearch_eq hInv hw (by norm_num) 10 0 le_rfl (by norm_num)
      (fun i hi hlt => absurd hlt (by omega)) (by rw [hq0])
  refine ⟨?_, hq0, hq1⟩
  rw [VirtualScroll.visibleRange, reachableState_itemPadding,
    reachableState_estimatedItemHeight]
  rw [show max 0 (0 - 0 * (10 : ℤ)) = 0 by norm_num,
    show (0 + 10 + 0 * (10 : ℤ)) = 10 by norm_num, hbs0, hbs10]
  norm_num

/-- C3 as stated is false: in the zero-margin state above, item 1's
cumulative interval `[10, 10]` intersects the viewport `[0, 10]`
(closed intervals), yet index 1 is not inside the returned half-open
range `[0, 1)`. -/
theorem visible_range_containment_counterexample :
    FenwickTree.query
      (reachableState ([0, 0, 0] : List ℕ) 10 0 [(1, 0)]).itemHeightTree
      ((1 : ℤ) - 1) ≤ 0 + 10 ∧
    (0 : ℤ) ≤ FenwickTree.query
      (reachableState ([0, 0, 0] : List ℕ) 10 0 [(1, 0)]).itemHeightTree
      (1 : ℤ) ∧
    ¬ (((reachableState ([0, 0, 0] : List ℕ) 10 0 [(1, 0)]).visibleRange
          0 10 (reachableState ([0, 0, 0] : List ℕ) 10 0
            [(1, 0)]).itemPadding).1 ≤ (1 : ℤ) ∧
       (1 : ℤ) < ((reachableState ([0, 0, 0] : List ℕ) 10 0
          [(1, 0)]).visibleRange 0 10
          (reachableState ([0, 0, 0] : List ℕ) 10 0
            [(1, 0)]).itemPadding).2) := by
  obtain ⟨hrange, hq0, hq1⟩ := zero_margin_visibleRange
  refine ⟨?_, ?_, ?_⟩
  · rw [show ((1 : ℤ) - 1) = 0 by norm_num, hq0]
    norm_num
  · rw [hq1]
    norm_num
  · rw [hrange]
    intro h
    exact absurd h.2 (by norm_num)

/-- C5 setup, Scenario A: 1000 items, estimated height 50, padding 5,
no measurements.  The total extent is 50000 and the visible range for
`scrollOffset = 1000`, `viewportExtent = 500` is `[14, 35)`:
`prefixSum(14) = 750 ≥ 750` and `prefixSum(34) = 1750 ≥ 1750`, and the
search returns the smallest qualifying index. -/
theorem scenarioA_values :
    VirtualScroll.totalHeight
      (reachableState (List.replicate 1000 ()) 50 5 []) = 50000 ∧
    (reachableState (List.replicate 1000 ()) 50 5 []).visibleRange
      1000 500
      (reachableState (List.replicate 1000 ()) 50 5 []).itemPadding
      = (14, 35) := by
  have hInv := reachableState_treeInv (List.replicate 1000 ()) 50 5 []
    (fun op hop => absurd hop (List.not_mem_nil op))
  rw [List.length_replicate] at hInv
  have hw : ∀ k, 0 ≤ heightsAfter
      (fun k => if k < 1000 then (50 : ℤ) else 0) [] k := by
    apply heightsAfter_nonneg
    · intro k
      split <;> norm_num
    · simp
  have hsum : ∀ m : ℕ, m ≤ 1000 →
      ∑ k in Finset.range m,
        heightsAfter (fun k => if k < 1000 then (50 : ℤ) else 0) [] k
      = 50 * m := by
    intro m hm
    have hconst : ∀ k ∈ Finset.range m,
        heightsAfter (fun k => if k < 1000 then (50 : ℤ) else 0) [] k
        = 50 := by
      intro k hk
      have hkm := Finset.mem_range.mp hk
      show (if k < 1000 then (50 : ℤ) else 0) = 50
      rw [if_pos (by omega)]
    rw [Finset.sum_congr rfl hconst, Finset.sum_const,
      Finset.card_range, nsmul_eq_mul]
    ring
  have hquery : ∀ i : ℤ, -1 ≤ i → i < 1000 →
      FenwickTree.query
        (reachableState (List.replicate 1000 ()) 50 5
          []).itemHeightTree i = 50 * (i + 1) := by
    intro i h1 h2
    rw [query_eq_sum hInv i (by omega), hsum (i + 1).toNat (by omega)]
    have h3 : ((i + 1).toNat : ℤ) = i + 1 := by omega
    rw [h3]
  have hbs750 : (reachableState (List.replicate 1000 ()) 50 5
      []).binarySearch 750 = 14 := by
    apply binarySearch_eq hInv hw (by norm_num) 750 14 (by norm_num)
      (by norm_num)
    · intro i hi hlt
      rw [hquery i (by omega) (by omega)]
      omega
    · rw [hquery 14 (by norm_num) (by norm_num)]
      norm_num
  have hbs1750 : (reachableState (List.replicate 1000 ()) 50 5
      []).binarySearch 1750 = 34 := by
    apply binarySearch_eq hInv hw (by norm_num) 1750 34 (by norm_num)
      (by norm_num)
    · intro i hi hlt
      rw [hquery i (by omega) (by omega)]
      omega
    · rw [hquery 34 (by norm_num) (by norm_num)]
      norm_num
  constructor
  · rw [VirtualScroll.totalHeight]
    have hlen : FenwickTree.length
        (reachableState (List.replicate 1000 ()) 50 5
          []).itemHeightTree = 1000 := by
      rw [FenwickTree.length, hInv.1]
      norm_num
    rw [hlen, show (1000 : ℤ) - 1 = 999 by norm_num]
    rw [hquery 999 (by norm_num) (by norm_num)]
    norm_num
  · rw [VirtualScroll.visibleRange, reachableState_itemPadding,
      reachableState_estimatedItemHeight]
    rw [show max 0 (1000 - 5 * (50 : ℤ)) = 750 by norm_num,
      show (1000 + 500 + 5 * (50 : ℤ)) = 1750 by norm_num,
      hbs750, hbs1750]
    norm_num

/-- C5 (amended): in Scenario A the total extent is 50000, the scan
bounds are `max(0, 1000 - 250) = 750` and `1000 + 500 + 250 = 1750`,
and the returned half-open range is `[14, 35)` — index 14 is the
smallest with `prefixSum ≥ 750` (namely 750) and index 34 the smallest
with `prefixSum ≥ 1750`, so `endIndex = 34 + 1 = 35`. -/
theorem scenario_a_amended :
    VirtualScroll.totalHeight
      (reachableState (List.replicate 1000 ()) 50 5 []) = 50000 ∧
    max 0 (1000 - 5 * (50 : ℤ)) = 750 ∧
    (1000 + 500 + 5 * (50 : ℤ)) = 1750 ∧
    (reachableState (List.replicate 1000 ()) 50 5 []).visibleRange
      1000 500
      (reachableState (List.replicate 1000 ()) 50 5 []).itemPadding
      = (14, 35) :=
  ⟨scenarioA_values.1, by norm_num, by norm_num, scenarioA_values.2⟩

/-- C5 as stated is false: the Scenario A visible range is not
`[15, 36)`. -/
theorem scenario_a_counterexample :
    ¬ (VirtualScroll.totalHeight
        (reachableState (List.replicate 1000 ()) 50 5 []) = 50000 ∧
       (reachableState (List.replicate 1000 ()) 50 5 []).visibleRange
        1000 500
        (reachableState (List.replicate 1000 ()) 50 5 []).itemPadding
        = (15, 36)) := by
  intro h
  have h2 := h.2
  rw [scenarioA_values.2] at h2
  have h3 := congrArg Prod.fst h2
  norm_num at h3

/-- C4: with `itemCount = 0` the total extent is 0, but the
visible-range query does not return an empty range: `binarySearch`
returns 0 on the empty tree (the loop guard `0 < -1` fails), so the
generator's range is `[0, 1)` and it yields one pair with index 0 and
an undefined (`none`) item. -/
theorem empty_engine_behavior :
    VirtualScroll.totalHeight
      (VirtualScroll.construct ([] : List ℕ) 50 5) = 0 ∧
    (VirtualScroll.construct ([] : List ℕ) 50 5).visibleRange 0 1000
      (VirtualScroll.construct ([] : List ℕ) 50 5).itemPadding
      = (0, 1) ∧
    (VirtualScroll.construct ([] : List ℕ) 50 5).visibleIndices 0 1000
      (VirtualScroll.construct ([] : List ℕ) 50 5).itemPadding
      = [0] ∧
    (VirtualScroll.construct
        ([] : List ℕ) 50 5).calculateVisibleItemsGenerator 0 1000
      (VirtualScroll.construct ([] : List ℕ) 50 5).itemPadding
      = [(none, 0)] := by
  have htree : (VirtualScroll.construct ([] : List ℕ) 50 5).itemHeightTree
      = [0] := rfl
  have hbs : ∀ v : ℤ,
      (VirtualScroll.construct ([] : List ℕ) 50 5).binarySearch v = 0 := by
    intro v
    rw [VirtualScroll.binarySearch, htree, VirtualScroll.binarySearchLoop,
      if_neg (by rw [FenwickTree.length]; norm_num)]
  have hrange : (VirtualScroll.construct
      ([] : List ℕ) 50 5).visibleRange 0 1000
      (VirtualScroll.construct ([] : List ℕ) 50 5).itemPadding
      = (0, 1) := by
    rw [VirtualScroll.visibleRange, hbs, hbs]
    norm_num
  have hidx : (VirtualScroll.construct
      ([] : List ℕ) 50 5).visibleIndices 0 1000
      (VirtualScroll.construct ([] : List ℕ) 50 5).itemPadding
      = [0] := by
    rw [VirtualScroll.visibleIndices, hrange]
    rfl
  refine ⟨?_, hrange, hidx, ?_⟩
  · rw [VirtualScroll.totalHeight, htree,
      show FenwickTree.length [(0 : ℤ)] - 1 = -1 by
        rw [FenwickTree.length]; norm_num]
    exact query_neg_one [0]
  · rw [VirtualScroll.calculateVisibleItemsGenerator, hidx]
    rfl

/-- Out-of-range `update`: when `index + 1` is already past the slot
array, the walk's loop body never runs and the tree is returned
unchanged — nothing is signalled. -/
theorem update_out_of_range_noop (t : List ℤ) (index : ℕ) (v : ℤ)
    (h : t.length ≤ index + 1) : FenwickTree.update t index v = t := by
  rw [FenwickTree.update, fenwickUpdateLoop, dif_neg (by omega)]

/-- C6: on a 3-element store (valid indices `[0, 3)`),
`update(3, 5)` silently leaves every slot unchanged instead of
reporting a range error. -/
theorem update_out_of_range_silent :
    FenwickTree.update (initFenwickTree [10, 20, 30]) 3 5
      = initFenwickTree [10, 20, 30] ∧
    FenwickTree.length (initFenwickTree [10, 20, 30]) = 3 := by
  have hlen : (initFenwickTree [10, 20, 30]).length = 4 := by
    have h := (initFenwickTree_treeInv [10, 20, 30]).1
    simpa using h
  refine ⟨update_out_of_range_noop _ 3 5 (by omega), ?_⟩
  rw [FenwickTree.length, hlen]
  norm_num

/-- C7: `updateItemData(0, -10)` on a fresh 3-item engine with
estimated height 50 is not rejected: the negative height is applied,
`getItemData(0)` changes from `(50, 0)` to `(-10, 0)`, and the store
is modified. -/
theorem negative_height_applied :
    VirtualScroll.getItemData
      (VirtualScroll.construct ([(), (), ()] : List Unit) 50 5) 0
      = (50, 0) ∧
    VirtualScroll.getItemData
      ((VirtualScroll.construct
        ([(), (), ()] : List Unit) 50 5).updateItemData 0 (-10)) 0
      = (-10, 0) ∧
    ((VirtualScroll.construct
        ([(), (), ()] : List Unit) 50 5).updateItemData 0
        (-10)).itemHeightTree ≠
      (VirtualScroll.construct
        ([(), (), ()] : List Unit) 50 5).itemHeightTree := by
  have hInv0 := construct_treeInv ([(), (), ()] : List Unit) 50 5
  have hInv1 := updateItemData_treeInv hInv0 0 (by norm_num) (-10)
  have hval : ∀ (t : List ℤ) (w : ℕ → ℤ),
      treeInv t w ([(), (), ()] : List Unit).length →
      (FenwickTree.queryRange t 0 0, FenwickTree.query t (0 - 1))
        = (w 0, 0) := by
    intro t w hInv
    have h1 : FenwickTree.queryRange t 0 0 = w 0 := by
      rw [FenwickTree.queryRange, if_neg (lt_irrefl 0),
        query_eq_sum hInv 0 (by norm_num),
        show ((0 : ℤ) + 1).toNat = 1 from rfl, Finset.sum_range_one]
      ring
    have h2 : FenwickTree.query t (0 - 1) = 0 := by
      rw [show ((0 : ℤ) - 1) = -1 by norm_num, query_neg_one]
    rw [h1, h2]
  have e0 := hval _ _ hInv0
  have e1 := hval _ _ hInv1
  refine ⟨?_, ?_, ?_⟩
  · rw [VirtualScroll.getItemData, e0]
    norm_num
  · rw [VirtualScroll.getItemData, e1]
    norm_num
  · intro heq
    have hc := congrArg
      (fun t => (FenwickTree.queryRange t 0 0,
        FenwickTree.query t (0 - 1))) heq
    simp only at hc
    rw [e0, e1] at hc
    have := congrArg Prod.fst hc
    norm_num at this

/-- An `update` with value 0 adds 0 to every touched slot and leaves
the tree unchanged. -/
theorem update_zero (t : List ℤ) (index : ℕ) :
    FenwickTree.update t index 0 = t := by
  apply List.ext_getElem
  · rw [FenwickTree.update, fenwickUpdateLoop_length]
  · intro i h1 h2
    have hlen : (FenwickTree.update t index 0).length = t.length := by
      rw [FenwickTree.update, fenwickUpdateLoop_length]
    rw [← List.getD_eq_getElem (FenwickTree.update t index 0) 0 h1,
      ← List.getD_eq_getElem t 0 h2]
    rw [FenwickTree.update,
      fenwickUpdateLoop_getD t (index + 1) 0 (by omega) i]
    split <;> ring

/-- C8: repeating `updateItemHeight(i, h)` is idempotent on every
reachable engine state: after the first call the stored height at `i`
is `h`, so the second call's delta `h - queryRange(i, i)` is 0 and the
store is left exactly as it was. -/
theorem updateItemHeight_idempotent {T : Type} (items : List T)
    (est pad : ℤ) (ops : List (ℕ × ℤ))
    (hops : ∀ op ∈ ops, op.1 < items.length)
    (i : ℕ) (hi : i < items.length) (h : ℤ) (hh : 0 ≤ h) :
    ((reachableState items est pad ops).updateItemData i h).updateItemData
        i h
      = (reachableState items est pad ops).updateItemData i h := by
  have hInv := reachableState_treeInv items est pad ops hops
  have hInv' := updateItemData_treeInv hInv i hi h
  have hq : FenwickTree.queryRange
      ((reachableState items est pad ops).updateItemData
        i h).itemHeightTree (i : ℤ) (i : ℤ) = h := by
    rw [queryRange_single hInv' i hi]
    simp
  conv_lhs => rw [VirtualScroll.updateItemData]
  rw [hq, sub_self, update_zero]

theorem updateItemHeight_idempotent_witness :
    (∀ op ∈ ([] : List (ℕ × ℤ)),
      op.1 < ([(), ()] : List Unit).length) ∧
    (0 < ([(), ()] : List Unit).length) ∧ ((0 : ℤ) ≤ 7) ∧
    ((reachableState [(), ()] 50 5 []).updateItemData 0 7).updateItemData
        0 7
      = (reachableState [(), ()] 50 5 []).updateItemData 0 7 :=
  ⟨by simp, by simp, by norm_num,
    updateItemHeight_idempotent [(), ()] 50 5 [] (by simp) 0 (by simp)
      7 (by norm_num)⟩

/-- The search result always lies in `[lowIndex, highIndex]`,
independently of the tree values. -/
theorem binarySearchLoop_bounds :
    ∀ m : ℕ, ∀ (t : List ℤ) (value lowIndex highIndex : ℤ),
      (highIndex - lowIndex).toNat ≤ m → lowIndex ≤ highIndex →
      lowIndex ≤ VirtualScroll.binarySearchLoop t value lowIndex
        highIndex ∧
      VirtualScroll.binarySearchLoop t value lowIndex highIndex
        ≤ highIndex := by
  intro m
  induction m with
  | zero =>
    intro t value low high hm hlh
    rw [VirtualScroll.binarySearchLoop, if_neg (by omega)]
    exact ⟨le_rfl, hlh⟩
  | succ m ih =>
    intro t value low high hm hlh
    by_cases hlt : low < high
    · rw [VirtualScroll.binarySearchLoop, if_pos hlt]
      by_cases hq : FenwickTree.query t ((low + high) / 2) < value
      · rw [if_pos hq]
        have h := ih t value ((low + high) / 2 + 1) high (by omega)
          (by omega)
        exact ⟨by omega, h.2⟩
      · rw [if_neg hq]
        have h := ih t value low ((low + high) / 2) (by omega)
          (by omega)
        exact ⟨h.1, by omega⟩
    · rw [VirtualScroll.binarySearchLoop, if_neg hlt]
      exact ⟨le_rfl, hlh⟩

/-- C9: on every reachable engine state with at least one item, every
pair yielded by `calculateVisibleItemsGenerator` has an index in
`[0, n)` and a defined (`some`) item, for all scroll positions,
viewport heights and paddings. -/
theorem generator_yields_in_bounds {T : Type} (items : List T)
    (est pad : ℤ) (ops : List (ℕ × ℤ))
    (hops : ∀ op ∈ ops, op.1 < items.length)
    (hn : 1 ≤ items.length) (scrollTop clientHeight padding : ℤ) :
    ∀ p ∈ (reachableState items est pad
        ops).calculateVisibleItemsGenerator scrollTop clientHeight
        padding,
      0 ≤ p.2 ∧ p.2 < (items.length : ℤ) ∧ p.1.isSome = true := by
  have hInv := reachableState_treeInv items est pad ops hops
  have hlen : FenwickTree.length
      (reachableState items est pad ops).itemHeightTree
      = (items.length : ℤ) := by
    rw [FenwickTree.length, hInv.1]
    push_cast
    ring
  have hbounds : ∀ v : ℤ,
      0 ≤ (reachableState items est pad ops).binarySearch v ∧
      (reachableState items est pad ops).binarySearch v
        ≤ (items.length : ℤ) - 1 := by
    intro v
    rw [VirtualScroll.binarySearch, hlen]
    exact binarySearchLoop_bounds
      ((items.length : ℤ) - 1 - 0).toNat _ v 0 ((items.length : ℤ) - 1)
      le_rfl (by omega)
  intro p hp
  rw [VirtualScroll.calculateVisibleItemsGenerator, List.mem_map] at hp
  obtain ⟨idx, hidx, rfl⟩ := hp
  rw [VirtualScroll.visibleIndices, List.mem_map] at hidx
  obtain ⟨k, hk, rfl⟩ := hidx
  rw [List.mem_range] at hk
  simp only [VirtualScroll.visibleRange] at hk ⊢
  have h1 := hbounds (max 0 (scrollTop -
    padding * (reachableState items est pad ops).estimatedItemHeight))
  have h2 := hbounds (scrollTop + clientHeight +
    padding * (reachableState items est pad ops).estimatedItemHeight)
  have hidx0 : 0 ≤ (reachableState items est pad ops).binarySearch
      (max 0 (scrollTop - padding *
        (reachableState items est pad ops).estimatedItemHeight))
      + (k : ℤ) := by omega
  have hidxn : (reachableState items est pad ops).binarySearch
      (max 0 (scrollTop - padding *
        (reachableState items est pad ops).estimatedItemHeight))
      + (k : ℤ) < (items.length : ℤ) := by omega
  refine ⟨hidx0, hidxn, ?_⟩
  rw [if_pos hidx0, reachableState_items, List.get?_eq_getElem?,
    List.getElem?_eq_getElem (by omega)]
  rfl

theorem generator_yields_in_bounds_witness :
    (∀ op ∈ ([] : List (ℕ × ℤ)),
      op.1 < ([()] : List Unit).length) ∧
    (0 < ([()] : List Unit).length) ∧
    (∀ p ∈ (reachableState [()] 50 5
        []).calculateVisibleItemsGenerator 0 100 5,
      0 ≤ p.2 ∧ p.2 < (([()] : List Unit).length : ℤ) ∧
      p.1.isSome = true) :=
  ⟨by simp, by simp,
    generator_yields_in_bounds [()] 50 5 [] (by simp) (by simp)
      0 100 5⟩

/-!
`chunkArray` (`src/utils/helpers.ts`).
-/

/-- The `for (let i = 0; i < array.length; i += size)` loop of
`chunkArray`, pushing `array.slice(i, i + size)` each iteration.  The
`0 < size` conjunct of the guard is needed for termination only: with
`size = 0` the source loops forever, and the claim assumes
`size ≥ 1`. -/
def chunkLoop {α : Type} (array : List α) (size i : ℕ) :
    List (List α) :=
  if h : i < array.length ∧ 0 < size then
    (array.drop i).take size :: chunkLoop array size (i + size)
  else []
termination_by array.length - i
decreasing_by omega

/-- `chunkArray(array, size)` from `helpers.ts`. -/
def chunkArray {α : Type} (array : List α) (size : ℕ) :
    List (List α) :=
  chunkLoop array size 0

theorem chunkLoop_join {α : Type} (array : List α) (size : ℕ)
    (hs : 0 < size) :
    ∀ m i, array.length - i ≤ m →
      (chunkLoop array size i).join = array.drop i := by
  intro m
  induction m with
  | zero =>
    intro i hi
    rw [chunkLoop, dif_neg (by omega)]
    simp [List.drop_eq_nil_of_le (show array.length ≤ i by omega)]
  | succ m ih =>
    intro i hi
    by_cases hc : i < array.length ∧ 0 < size
    · rw [chunkLoop, dif_pos hc]
      show (array.drop i).take size ++
        (chunkLoop array size (i + size)).join = array.drop i
      rw [ih (i + size) (by omega)]
      rw [show array.drop (i + size) = (array.drop i).drop size by
        rw [List.drop_drop]]
      exact List.take_append_drop size (array.drop i)
    · rw [chunkLoop, dif_neg hc]
      simp [List.drop_eq_nil_of_le (show array.length ≤ i by omega)]

theorem chunkLoop_dropLast_length {α : Type} (array : List α)
    (size : ℕ) :
    ∀ m i, array.length - i ≤ m →
      ∀ c ∈ (chunkLoop array size i).dropLast, c.length = size := by
  intro m
  induction m with
  | zero =>
    intro i hi c hc
    rw [chunkLoop, dif_neg (by omega)] at hc
    simp at hc
  | succ m ih =>
    intro i hi c hc
    by_cases hcc : i < array.length ∧ 0 < size
    · rw [chunkLoop, dif_pos hcc] at hc
      rcases hrest : chunkLoop array size (i + size) with _ | ⟨c2, rest2⟩
      · rw [hrest] at hc
        simp at hc
      · rw [hrest, List.dropLast_cons₂] at hc
        rcases List.mem_cons.mp hc with rfl | hc2
        · have hlt : i + size < array.length := by
            by_contra hno
            have hnil : chunkLoop array size (i + size) = [] := by
              rw [chunkLoop, dif_neg (by omega)]
            rw [hnil] at hrest
            exact List.cons_ne_nil c2 rest2 hrest.symm
          rw [List.length_take, List.length_drop]
          omega
        · apply ih (i + size) (by omega)
          rw [hrest]
          exact hc2
    · rw [chunkLoop, dif_neg hcc] at hc
      simp at hc

theorem chunkLoop_ne_nil {α : Type} (array : List α) (size : ℕ) :
    ∀ m i, array.length - i ≤ m →
      ∀ c ∈ chunkLoop array size i, c ≠ [] := by
  intro m
  induction m with
  | zero =>
    intro i hi c hc
    rw [chunkLoop, dif_neg (by omega)] at hc
    simp at hc
  | succ m ih =>
    intro i hi c hc
    by_cases hcc : i < array.length ∧ 0 < size
    · rw [chunkLoop, dif_pos hcc] at hc
      rcases List.mem_cons.mp hc with rfl | hc2
      · apply List.ne_nil_of_length_pos
        rw [List.length_take, List.length_drop]
        omega
      · exact ih (i + size) (by omega) c hc2
    · rw [chunkLoop, dif_neg hcc] at hc
      simp at hc

/-- C10: for every array and chunk size `≥ 1`, the chunks concatenate
back to the array in order, every chunk except possibly the last has
length exactly `size`, and the last chunk is non-empty when the array
is non-empty. -/
theorem chunkArray_spec {α : Type} (array : List α) (size : ℕ)
    (hs : 1 ≤ size) :
    (chunkArray array size).join = array ∧
    (∀ c ∈ (chunkArray array size).dropLast, c.length = size) ∧
    (array ≠ [] → ∃ c, (chunkArray array size).getLast? = some c ∧
      c ≠ []) := by
  refine ⟨?_, ?_, ?_⟩
  · have h := chunkLoop_join array size (by omega) array.length 0
      (by omega)
    simpa using h
  · intro c hc
    exact chunkLoop_dropLast_length array size array.length 0
      (by omega) c hc
  · intro hne
    have hnil : chunkArray array size ≠ [] := by
      rw [chunkArray, chunkLoop,
        dif_pos ⟨List.length_pos.mpr hne, by omega⟩]
      exact List.cons_ne_nil _ _
    refine ⟨(chunkArray array size).getLast hnil,
      List.getLast?_eq_getLast _ hnil, ?_⟩
    exact chunkLoop_ne_nil array size array.length 0 (by omega) _
      (List.getLast_mem hnil)

theorem chunkArray_spec_witness :
    (1 ≤ 2) ∧
    ((chunkArray [1, 2, 3] 2).join = [1, 2, 3] ∧
     (∀ c ∈ (chunkArray ([1, 2, 3] : List ℕ) 2).dropLast,
       c.length = 2) ∧
     (([1, 2, 3] : List ℕ) ≠ [] →
       ∃ c, (chunkArray ([1, 2, 3] : List ℕ) 2).getLast? = some c ∧
         c ≠ [])) :=
  ⟨by norm_num, chunkArray_spec [1, 2, 3] 2 (by norm_num)⟩

end StencilVirtualized
